import Mathlib

/-!
Verification development for the Equipment-Management repository.

Two parts are modelled:

1. The Smart Merge reconciliation algorithm (backup/restore differential
   synchronization).  The implementation file `backup_csv_for_db_restore.py`
   is not part of the source snapshot (only its documentation
   `SMART_MERGE_DOCUMENTATION.md` is), so the reconciler is modelled from
   the specification's words: records as flat string-to-scalar maps,
   identifier inference by a priority list of name tests, normalized
   field-by-field comparison, and the insert/update/unchanged partition.

2. The anti-fade DOM scripts (`ultra_fast_anti_fade.js` and the unnamed
   performance-optimized and ultra-aggressive variants), modelled as pure
   transformations of a document state: a body element plus an ordered list
   of elements, each with a style record; and the bootstrap safety
   intervals, modelled as a counter/active state machine.
-/

namespace EqMg

/-- Modelled from the spec: a scalar value of a Record — string, number,
boolean, or null (`backup_csv_for_db_restore.py` is missing from the
snapshot). -/
inductive Value where
  | str (s : String)
  | num (n : Int)
  | boolean (b : Bool)
  | null
deriving DecidableEq, Repr

/-- Modelled from the spec: a Record is a mapping from field name to scalar
value, kept as an association list in field order. -/
abbrev Record := List (String × Value)

/-- Whitespace trimming from the left of a character list. -/
def trimLeft : List Char → List Char
  | [] => []
  | c :: cs => if c.isWhitespace then trimLeft cs else c :: cs

/-- Whitespace trimming from the right of a character list. -/
def trimRight (l : List Char) : List Char := (trimLeft l.reverse).reverse

/-- Trim leading and trailing whitespace of a string. -/
def trimStr (s : String) : String := ⟨trimRight (trimLeft s.data)⟩

/-- Modelled from the spec: convert a scalar to a string, a stored null
becoming the empty string (missing code: the comparison helper of
`backup_csv_for_db_restore.py`). -/
def stringify : Value → String
  | Value.str s => s
  | Value.num n => toString n
  | Value.boolean b => toString b
  | Value.null => ""

/-- Modelled from the spec: the shared normalization — stringify, treat
null and empty string as equivalent, trim surrounding whitespace. -/
def normalize (v : Value) : String := trimStr (stringify v)

/-- Field lookup (first entry with the name); a missing field reads as
null. -/
def getField : Record → String → Value
  | [], _ => Value.null
  | kv :: t, f => if kv.1 == f then kv.2 else getField t f

/-- Set a field of a record: replace the first entry with that name, or
append a new entry. -/
def setField : Record → String → Value → Record
  | [], f, v => [(f, v)]
  | (k, w) :: t, f, v => if k == f then (f, v) :: t else (k, w) :: setField t f v

/-- The field names of a record, in order. -/
def fieldNames (r : Record) : List String := r.map Prod.fst

/-- Append a key to a schema accumulator unless already present. -/
def addKey (acc : List String) (k : String) : List String :=
  if acc.contains k then acc else acc ++ [k]

/-- Accumulate the keys of one record into a schema. -/
def recKeys (acc : List String) (r : Record) : List String :=
  r.foldl (fun a kv => addKey a kv.1) acc

/-- Modelled from the spec: the schema of a RecordSet — the union of keys
across records, in order of first appearance. -/
def schemaOf (rs : List Record) : List String := rs.foldl recKeys []

/-- The union schema of two records. -/
def unionSchema (b lr : Record) : List String := schemaOf [b, lr]

/-- Lower-case a string (candidate matching is case-insensitive). -/
def lowerStr (s : String) : String := ⟨s.data.map Char.toLower⟩

/-- Character-list test: the first list starts the second. -/
def startsWithLC : List Char → List Char → Bool
  | [], _ => true
  | _ :: _, [] => false
  | c :: p, d :: l => c == d && startsWithLC p l

/-- Character-list test: the first list ends the second. -/
def endsWithLC (p l : List Char) : Bool := startsWithLC p.reverse l.reverse

/-- Character-list test: the first list occurs inside the second. -/
def containsLC (p : List Char) : List Char → Bool
  | [] => p.isEmpty
  | c :: t => startsWithLC p (c :: t) || containsLC p t

/-- Modelled from the spec: the identifier-candidate tiers, in strict
priority order, each a test on the lower-cased field name. -/
def tierList : List (String → Bool) :=
  [ fun s => s == "id",
    fun s => s == "uuid",
    fun s => endsWithLC "_id".data s.data,
    fun s => startsWithLC "id_".data s.data,
    fun s => containsLC "uuid".data s.data,
    fun s => s == "serial",
    fun s => containsLC "serial".data s.data ]

/-- A tier test applied case-insensitively to a field name. -/
def matchesTier (p : String → Bool) (f : String) : Bool := p (lowerStr f)

/-- Evaluate tiers in order; within a tier the first schema field wins. -/
def findByTiers : List (String → Bool) → List String → Option String
  | [], _ => none
  | p :: ps, schema =>
    match schema.find? (matchesTier p) with
    | some f => some f
    | none => findByTiers ps schema

/-- Modelled from the spec: identifier inference over a schema, returning
the first field of the highest-priority matching tier, or failure. -/
def inferIdentifier (schema : List String) : Option String :=
  findByTiers tierList schema

/-- The normalized identifier value of a record, the join key. -/
def keyOf (idf : String) (r : Record) : String := normalize (getField r idf)

/-- Modelled from the spec: identifier-value lookup over the live set with
last-seen-wins on duplicate identifier values. -/
def findLastKey (idf : String) (k : String) : List Record → Option Record
  | [] => none
  | lr :: rest =>
    match findLastKey idf k rest with
    | some r => some r
    | none => if keyOf idf lr == k then some lr else none

/-- A field-level diff: (field name, old live value, new backup value). -/
abbrev Diff := List (String × Value × Value)

/-- Modelled from the spec: record comparison — one diff entry per field of
the union schema whose normalized values differ. -/
def diffRecords (b lr : Record) : Diff :=
  (unionSchema b lr).filterMap (fun f =>
    if normalize (getField b f) == normalize (getField lr f) then none
    else some (f, getField lr f, getField b f))

/-- The reconciliation result: the identifier field used, and the three
partitions of the backup records. -/
structure ReconResult where
  idField : String
  toInsert : List Record
  toUpdate : List (Record × Diff)
  unchanged : List Record
deriving DecidableEq, Repr

/-- Modelled from the spec: classify every backup record against the live
lookup — no match inserts, a differing match updates, an equal match is
unchanged. -/
def classify (idf : String) (lives : List Record) : List Record → ReconResult
  | [] => ⟨idf, [], [], []⟩
  | r :: rs =>
    let rest := classify idf lives rs
    match findLastKey idf (keyOf idf r) lives with
    | none => { rest with toInsert := r :: rest.toInsert }
    | some lr =>
      if (diffRecords r lr).isEmpty then { rest with unchanged := r :: rest.unchanged }
      else { rest with toUpdate := (r, diffRecords r lr) :: rest.toUpdate }

/-- The classification code of one backup record against the live lookup:
0 inserts, 1 updates, 2 is unchanged. -/
def classOf (idf : String) (lives : List Record) (r : Record) : Nat :=
  match findLastKey idf (keyOf idf r) lives with
  | none => 0
  | some lr => if (diffRecords r lr).isEmpty then 2 else 1

/-- Outcome of `reconcile`: a result, or the no-identifier failure with no
partitions. -/
inductive ReconOutcome where
  | ok (res : ReconResult)
  | noIdentifierFound
deriving DecidableEq, Repr

/-- Modelled from the spec: the reconciler — infer the identifier from the
live schema, falling back to the backup schema, and classify; with no
identifier anywhere, abort before any comparison. -/
def reconcile (backup live : List Record) : ReconOutcome :=
  match inferIdentifier (schemaOf live) with
  | some idf => ReconOutcome.ok (classify idf live backup)
  | none =>
    match inferIdentifier (schemaOf backup) with
    | some idf => ReconOutcome.ok (classify idf live backup)
    | none => ReconOutcome.noIdentifierFound

/-- Apply a diff to a live record: set every diff field to its new value. -/
def applyDiff (lr : Record) (d : Diff) : Record :=
  d.foldl (fun r e => setField r e.1 e.2.2) lr

/-- Apply one update to the live set, targeting records by identifier. -/
def applyUpdateOne (idf : String) (u : Record × Diff) (lives : List Record) :
    List Record :=
  lives.map (fun lr => if keyOf idf lr == keyOf idf u.1 then applyDiff lr u.2 else lr)

/-- Modelled from the spec: the external apply step — perform every update
keyed by the identifier field, then insert the new records. -/
def applyAll (res : ReconResult) (lives : List Record) : List Record :=
  (res.toUpdate.foldl (fun ls u => applyUpdateOne res.idField u ls) lives)
    ++ res.toInsert

/-- Element-wise view of the update fold, for reasoning. -/
def updElem (idf : String) (us : List (Record × Diff)) (e : Record) : Record :=
  us.foldl (fun r u => if keyOf idf r == keyOf idf u.1 then applyDiff r u.2 else r) e

/-- A two-field record with integer id and qty. -/
def rIdQty (n q : Int) : Record := [("id", Value.num n), ("qty", Value.num q)]

/-- End-to-end example backup set from the spec. -/
def exB1 : List Record := [rIdQty 1 10, rIdQty 2 5, rIdQty 3 7]

/-- End-to-end example live set from the spec. -/
def exL1 : List Record := [rIdQty 1 10, rIdQty 2 8]

/-- The reconciliation result of the end-to-end example. -/
def exRes1 : ReconResult := classify "id" exL1 exB1

/-- A backup set whose schema has no identifier candidate. -/
def exB3 : List Record :=
  [[("name", Value.str "a"), ("quantity", Value.num 1), ("location", Value.str "x")]]

/-- A live set whose schema has no identifier candidate. -/
def exL3 : List Record :=
  [[("name", Value.str "b"), ("quantity", Value.num 2), ("location", Value.str "y")]]

/-- Backup record differing from the live one only in representation. -/
def exBackup4 : List Record := [[("id", Value.str "1"), ("qty", Value.str " 5 ")]]

/-- Live record with numeric values. -/
def exLive4 : List Record := [[("id", Value.num 1), ("qty", Value.num 5)]]

/-- Backup set for the apply-idempotence counterexample: distinct
record_id keys but a shared lower-priority id value. -/
def exB5 : List Record :=
  [[("record_id", Value.num 1), ("id", Value.num 7)],
   [("record_id", Value.num 2), ("id", Value.num 7)]]

/-- Live set for the apply-idempotence counterexample. -/
def exL5 : List Record := [[("record_id", Value.num 1)], [("record_id", Value.num 2)]]

/-- Reconciliation result of the counterexample pair. -/
def exRes5 : ReconResult := classify "record_id" exL5 exB5

/-- The post-apply live set of the counterexample. -/
def exL5' : List Record := applyAll exRes5 exL5

/-- Live set with a duplicated identifier value. -/
def exL6 : List Record :=
  [[("id", Value.num 1), ("qty", Value.num 5)], [("id", Value.num 1), ("qty", Value.num 9)]]

/-- Backup set matching the last duplicate of `exL6`. -/
def exB6 : List Record := [[("id", Value.num 1), ("qty", Value.num 9)]]

/-- The style state of a DOM element: the four properties the anti-fade
scripts write, plus all remaining style properties. -/
structure Style where
  backgroundColor : String
  transition : String
  opacity : String
  animation : String
  other : List (String × String)
deriving DecidableEq, Repr

/-- A DOM element: tag, class list, data-testid, non-style attributes and
style. -/
structure Elem where
  tag : String
  classes : List String
  testid : Option String
  attrs : List (String × String)
  style : Style
deriving DecidableEq, Repr

/-- A document: the body element and the ordered list of other elements. -/
structure Document where
  body : Elem
  elems : List Elem
deriving DecidableEq, Repr

/-- Class membership test of an element. -/
def hasClass (c : String) (e : Elem) : Bool := e.classes.contains c

/-- Selector `.stApp`. -/
def isStApp (e : Elem) : Bool := hasClass "stApp" e

/-- Selector `[data-testid="stDecoration"]`. -/
def isDecoration (e : Elem) : Bool := e.testid == some "stDecoration"

/-- Selector `.stButton, .stSelectbox, .stTextInput, .stDataFrame`. -/
def isCritical (e : Elem) : Bool :=
  hasClass "stButton" e || hasClass "stSelectbox" e ||
    hasClass "stTextInput" e || hasClass "stDataFrame" e

/-- Selector of the ultra-aggressive script's Streamlit element query:
the critical classes plus `.stForm` and the decoration testid. -/
def isUltraSel (e : Elem) : Bool :=
  isCritical e || hasClass "stForm" e || isDecoration e

/-- Force the four anti-fade style properties of one element: white
background, no transition, full opacity, no animation. -/
def setStyle4 (e : Elem) : Elem :=
  { e with style := { e.style with backgroundColor := "#ffffff",
                                   transition := "none",
                                   opacity := "1",
                                   animation := "none" } }

/-- Force only transition, animation and opacity (the critical-component
branch of the performance-optimized script). -/
def setStyle3 (e : Elem) : Elem :=
  { e with style := { e.style with transition := "none",
                                   animation := "none",
                                   opacity := "1" } }

/-- `querySelector` followed by a mutation: update the first element
matching the test. -/
def updateFirst (p : Elem → Bool) (f : Elem → Elem) : List Elem → List Elem
  | [] => []
  | e :: es => if p e then f e :: es else e :: updateFirst p f es

/-- The per-div branch of the ultra-aggressive loop over all divs. -/
def divFix (e : Elem) : Elem := if e.tag == "div" then setStyle4 e else e

/-- The per-element branch of the ultra-aggressive Streamlit query loop. -/
def ultraSelFix (e : Elem) : Elem := if isUltraSel e then setStyle4 e else e

/-- The per-element branch of the decoration loop. -/
def decorationFix (e : Elem) : Elem := if isDecoration e then setStyle4 e else e

/-- The per-element branch of the critical-components loop. -/
def criticalFix (e : Elem) : Elem := if isCritical e then setStyle3 e else e

/-- The `ultraFastFix` routine of the ultra-aggressive script: force body,
the first `.stApp` container, every div, and every queried Streamlit
element to the four anti-fade style values. -/
def ultraFastFix (d : Document) : Document :=
  let es1 := updateFirst isStApp setStyle4 d.elems
  let es2 := es1.map divFix
  let es3 := es2.map ultraSelFix
  { body := setStyle4 d.body, elems := es3 }

/-- The `performanceOptimizedAntiFade` routine: force body, the first
`.stApp` container and the decoration elements fully, and the critical
components' transition, animation and opacity only. -/
def performanceOptimizedAntiFade (d : Document) : Document :=
  let es1 := updateFirst isStApp setStyle4 d.elems
  let es2 := es1.map decorationFix
  let es3 := es2.map criticalFix
  { body := setStyle4 d.body, elems := es3 }

/-- Shape preservation between two elements: the same tag, classes,
testid, non-style attributes, and untargeted style properties. -/
def sameShape (a c : Elem) : Prop :=
  c.tag = a.tag ∧ c.classes = a.classes ∧ c.testid = a.testid ∧
    c.attrs = a.attrs ∧ c.style.other = a.style.other

/-- The frame relation of the performance-optimized fix: an element keeps
its tag, classes, testid, attributes and untargeted style properties; an
element matched by no selector is untouched entirely. -/
def elemFrame (a c : Elem) : Prop :=
  sameShape a c ∧ ((isStApp a || isDecoration a || isCritical a) = false → c = a)

/-- The state of a bootstrap safety interval: tick counter and whether the
interval is still installed. -/
structure SafetyState where
  counter : Nat
  active : Bool
deriving DecidableEq, Repr

/-- One timer tick: an active interval fires its callback, increments the
counter, and clears itself once the counter reaches the limit; a cleared
interval does nothing.  The Bool reports whether the callback fired. -/
def safetyTick (limit : Nat) (s : SafetyState) : SafetyState × Bool :=
  if s.active then
    (⟨s.counter + 1, decide (s.counter + 1 < limit)⟩, true)
  else (s, false)

/-- Number of callback firings over a run of ticks. -/
def fireCount (limit : Nat) : Nat → SafetyState → Nat
  | 0, _ => 0
  | n + 1, s =>
    let t := safetyTick limit s
    (cond t.2 1 0) + fireCount limit n t.1

/-- The safety bound of the performance-optimized script (5 runs of 200ms). -/
def perfSafetyLimit : Nat := 5

/-- The safety bound of `ultra_fast_anti_fade.js` (20 runs of 100ms). -/
def ultraSafetyLimit : Nat := 20

/-- The initial safety-interval state: counter 0, installed. -/
def safetyInit : SafetyState := ⟨0, true⟩

/-- An example style with every property off the forced values. -/
def exStyle : Style := ⟨"red", "all 1s", "0.5", "fade", [("display", "block")]⟩

/-- An example plain div. -/
def exDivElem : Elem := ⟨"div", [], none, [("role", "main")], exStyle⟩

/-- An example non-div `.stApp` container. -/
def exAppElem : Elem := ⟨"section", ["stApp"], none, [], exStyle⟩

/-- An example element matched by no selector. -/
def exPlainElem : Elem := ⟨"span", [], none, [], exStyle⟩

/-- An example `.stButton` element. -/
def exButtonElem : Elem := ⟨"button", ["stButton"], none, [], exStyle⟩

/-- An example body element. -/
def exBodyElem : Elem := ⟨"body", [], none, [], exStyle⟩

/-- An example document exercising every selector branch. -/
def exDoc : Document := ⟨exBodyElem, [exDivElem, exAppElem, exPlainElem, exButtonElem]⟩

theorem trimLeft_idem (l : List Char) : trimLeft (trimLeft l) = trimLeft l := by
  induction l with
  | nil => rfl
  | cons c cs ih =>
    cases hw : c.isWhitespace with
    | true => simp [trimLeft, hw, ih]
    | false => simp [trimLeft, hw]

theorem trimLeft_suffix (l : List Char) : trimLeft l <:+ l := by
  induction l with
  | nil => exact List.suffix_refl []
  | cons c cs ih =>
    cases hw : c.isWhitespace with
    | true =>
      simp only [trimLeft, hw, if_pos]
      exact ih.trans (List.suffix_cons c cs)
    | false => simp [trimLeft, hw]

theorem trimLeft_length (l : List Char) : (trimLeft l).length ≤ l.length :=
  (trimLeft_suffix l).length_le

theorem trimLeft_fix_of_pre {m p : List Char} (hm : trimLeft m = m) (hp : p <+: m) :
    trimLeft p = p := by
  cases p with
  | nil => rfl
  | cons c p' =>
    obtain ⟨t, ht⟩ := hp
    cases hw : c.isWhitespace with
    | false => simp [trimLeft, hw]
    | true =>
      exfalso
      rw [← ht] at hm
      have hcons : (c :: p') ++ t = c :: (p' ++ t) := rfl
      rw [hcons] at hm
      simp only [trimLeft, hw, if_pos] at hm
      have hlen := congrArg List.length hm
      have hle := trimLeft_length (p' ++ t)
      rw [List.length_cons] at hlen
      omega

theorem trimRight_idem (l : List Char) : trimRight (trimRight l) = trimRight l := by
  simp [trimRight, List.reverse_reverse, trimLeft_idem]

theorem trimRight_pre (l : List Char) : trimRight l <+: l := by
  apply List.reverse_suffix.mp
  simp only [trimRight, List.reverse_reverse]
  exact trimLeft_suffix l.reverse

theorem trim_idem (l : List Char) :
    trimRight (trimLeft (trimRight (trimLeft l))) = trimRight (trimLeft l) := by
  have h1 : trimLeft (trimRight (trimLeft l)) = trimRight (trimLeft l) :=
    trimLeft_fix_of_pre (trimLeft_idem l) (trimRight_pre (trimLeft l))
  rw [h1, trimRight_idem]

theorem trimStr_idem (s : String) : trimStr (trimStr s) = trimStr s :=
  congrArg String.mk (trim_idem s.data)

/-- C7: the shared normalization (stringify, trim, null/empty equivalence)
is deterministic — equal inputs normalize equally on every call — and
idempotent: normalizing an already-normalized value changes nothing. -/
theorem normalize_deterministic_idempotent :
    (∀ v w : Value, v = w → normalize v = normalize w) ∧
    (∀ v : Value, normalize (Value.str (normalize v)) = normalize v) := by
  constructor
  · intro v w h
    rw [h]
  · intro v
    exact trimStr_idem (stringify v)

/-- Witness for C7 at concrete scalar values. -/
theorem normalize_deterministic_idempotent_witness :
    normalize (Value.num 5) = normalize (Value.num 5) ∧
    normalize (Value.str (normalize (Value.str " 5 "))) = normalize (Value.str " 5 ") :=
  ⟨normalize_deterministic_idempotent.1 (Value.num 5) (Value.num 5) rfl,
   normalize_deterministic_idempotent.2 (Value.str " 5 ")⟩

theorem findByTiers_priority (dflt : String → Bool) :
    ∀ (ps : List (String → Bool)) (schema : List String) (k : Nat) (f : String),
      k < ps.length →
      (∀ j, j < k → ∀ g ∈ schema, matchesTier (ps.getD j dflt) g = false) →
      schema.find? (matchesTier (ps.getD k dflt)) = some f →
      findByTiers ps schema = some f := by
  intro ps
  induction ps with
  | nil =>
    intro schema k f hk
    simp at hk
  | cons p ps ih =>
    intro schema k f hk hlow hfind
    cases k with
    | zero =>
      simp only [List.getD_cons_zero] at hfind
      simp [findByTiers, hfind]
    | succ k =>
      have h0 : ∀ g ∈ schema, matchesTier p g = false := by
        have h := hlow 0 (by omega)
        simpa using h
      have hnone : schema.find? (matchesTier p) = none := by
        rw [List.find?_eq_none]
        intro x hx
        simp [h0 x hx]
      simp only [findByTiers, hnone]
      exact ih schema k f (by simpa using hk)
        (fun j hj => by
          have h := hlow (j + 1) (by omega)
          simpa using h)
        (by simpa using hfind)

/-- C2: identifier inference evaluates the candidate tiers in fixed
priority order — if no field matches any tier below `k` and `f` is the
first schema field matching tier `k`, inference returns `f`; in
particular the schema `record_id, serial, name` yields `record_id`. -/
theorem inferIdentifier_priority :
    (∀ (schema : List String) (k : Nat) (f : String),
       k < tierList.length →
       (∀ j, j < k → ∀ g ∈ schema, matchesTier (tierList.getD j (fun _ => false)) g = false) →
       schema.find? (matchesTier (tierList.getD k (fun _ => false))) = some f →
       inferIdentifier schema = some f) ∧
    inferIdentifier ["record_id", "serial", "name"] = some "record_id" := by
  constructor
  · intro schema k f hk hlow hfind
    exact findByTiers_priority (fun _ => false) tierList schema k f hk hlow hfind
  · decide

/-- Witness for C2: the priority rule applied at the concrete schema,
tier 2 (the suffix `_id` tier). -/
theorem inferIdentifier_priority_witness :
    inferIdentifier ["record_id", "serial", "name"] = some "record_id" := by
  apply inferIdentifier_priority.1 ["record_id", "serial", "name"] 2 "record_id"
  · decide
  · intro j hj
    interval_cases j <;> decide
  · decide

theorem findByTiers_none :
    ∀ (ps : List (String → Bool)) (schema : List String),
      (∀ f ∈ schema, ∀ p ∈ ps, matchesTier p f = false) →
      findByTiers ps schema = none := by
  intro ps
  induction ps with
  | nil => intro schema _; rfl
  | cons p ps ih =>
    intro schema h
    have hnone : schema.find? (matchesTier p) = none := by
      rw [List.find?_eq_none]
      intro x hx
      simp [h x hx p (by simp)]
    simp only [findByTiers, hnone]
    exact ih schema (fun f hf q hq => h f hf q (by simp [hq]))

/-- C3: when no field of the live schema and no field of the backup schema
matches any inference tier, `reconcile` returns the no-identifier failure,
whose outcome carries no partitions and involves no record comparison. -/
theorem reconcile_no_identifier_abort :
    ∀ (B L : List Record),
      (∀ f ∈ schemaOf L, ∀ p ∈ tierList, matchesTier p f = false) →
      (∀ f ∈ schemaOf B, ∀ p ∈ tierList, matchesTier p f = false) →
      reconcile B L = ReconOutcome.noIdentifierFound := by
  intro B L hL hB
  have h1 : inferIdentifier (schemaOf L) = none := findByTiers_none tierList _ hL
  have h2 : inferIdentifier (schemaOf B) = none := findByTiers_none tierList _ hB
  simp [reconcile, h1, h2]

/-- Witness for C3 at the schema name, quantity, location. -/
theorem reconcile_no_identifier_abort_witness :
    reconcile exB3 exL3 = ReconOutcome.noIdentifierFound :=
  reconcile_no_identifier_abort exB3 exL3 (by decide) (by decide)

theorem findLastKey_eq_reverse_find (idf k : String) :
    ∀ L : List Record,
      findLastKey idf k L = L.reverse.find? (fun lr => keyOf idf lr == k) := by
  intro L
  induction L with
  | nil => rfl
  | cons lr rest ih =>
    rw [List.reverse_cons, List.find?_append]
    simp only [findLastKey, ih]
    cases hf : rest.reverse.find? (fun r => keyOf idf r == k) with
    | some r => simp
    | none =>
      simp only [Option.none_or]
      cases hk : (keyOf idf lr == k) with
      | true => simp [List.find?, hk]
      | false => simp [List.find?, hk]

/-- C6: the live lookup is last-seen-wins — the record found for a key is
the last record of the live set (the first of its reverse) carrying that
key — and duplicate identifiers are not fatal: the backup record of `exB6`
is compared against the last duplicate only and classified unchanged. -/
theorem findLastKey_last_seen_wins :
    (∀ (idf k : String) (L : List Record),
       findLastKey idf k L = L.reverse.find? (fun lr => keyOf idf lr == k)) ∧
    reconcile exB6 exL6 = ReconOutcome.ok ⟨"id", [], [], exB6⟩ :=
  ⟨fun idf k L => findLastKey_eq_reverse_find idf k L, by decide⟩

theorem fireCount_inactive (limit : Nat) :
    ∀ (n c : Nat), fireCount limit n ⟨c, false⟩ = 0 := by
  intro n
  induction n with
  | zero => intro c; rfl
  | succ n ih =>
    intro c
    simp only [fireCount, safetyTick]
    simpa using ih c

theorem fireCount_active (limit : Nat) :
    ∀ (n c : Nat), c < limit → fireCount limit n ⟨c, true⟩ = min n (limit - c) := by
  intro n
  induction n with
  | zero => intro c _; simp [fireCount]
  | succ n ih =>
    intro c hc
    by_cases h : c + 1 < limit
    · have hd : decide (c + 1 < limit) = true := by simp [h]
      simp only [fireCount, safetyTick, hd]
      simp only [if_true, ite_true, cond_true]
      rw [ih (c + 1) h]
      omega
    · have hd : decide (c + 1 < limit) = false := by simp [h]
      simp only [fireCount, safetyTick, hd]
      simp only [if_true, ite_true, cond_true]
      rw [fireCount_inactive]
      omega

/-- C10: the bootstrap safety intervals terminate — the
performance-optimized script's callback fires at most 5 times and the
ultra-fast script's at most 20; a cleared interval never fires, and the
tick that reaches the bound clears the interval. -/
theorem safetyInterval_terminates :
    (∀ n : Nat, fireCount perfSafetyLimit n safetyInit ≤ perfSafetyLimit) ∧
    (∀ n : Nat, fireCount ultraSafetyLimit n safetyInit ≤ ultraSafetyLimit) ∧
    (∀ (limit n : Nat) (s : SafetyState), s.active = false → fireCount limit n s = 0) ∧
    (∀ limit c : Nat, limit ≤ c + 1 →
       (safetyTick limit ⟨c, true⟩).1.active = false ∧
         (safetyTick limit ⟨c, true⟩).2 = true) := by
  refine ⟨?_, ?_, ?_, ?_⟩
  · intro n
    have h := fireCount_active perfSafetyLimit n 0 (by simp [perfSafetyLimit])
    rw [show safetyInit = (⟨0, true⟩ : SafetyState) from rfl, h]
    omega
  · intro n
    have h := fireCount_active ultraSafetyLimit n 0 (by simp [ultraSafetyLimit])
    rw [show safetyInit = (⟨0, true⟩ : SafetyState) from rfl, h]
    omega
  · intro limit n s hs
    obtain ⟨c, a⟩ := s
    cases a with
    | false => exact fireCount_inactive limit n c
    | true => simp at hs
  · intro limit c h
    constructor
    · simp only [safetyTick, if_pos rfl]
      simpa using by omega
    · simp [safetyTick]

theorem classOf_lt_three (idf : String) (lives : List Record) (r : Record) :
    classOf idf lives r < 3 := by
  unfold classOf
  cases findLastKey idf (keyOf idf r) lives with
  | none => simp
  | some lr =>
    by_cases hd : (diffRecords r lr).isEmpty = true
    · simp [hd]
    · simp [hd]

theorem classify_toInsert_eq (idf : String) (lives : List Record) :
    ∀ B : List Record,
      (classify idf lives B).toInsert = B.filter (fun r => classOf idf lives r == 0) := by
  intro B
  induction B with
  | nil => rfl
  | cons b bs ih =>
    cases hf : findLastKey idf (keyOf idf b) lives with
    | none =>
      simp only [classify, hf, List.filter_cons]
      have hc : classOf idf lives b = 0 := by simp [classOf, hf]
      simp [hc, ih]
    | some lr =>
      have hfilt : (classOf idf lives b == 0) = false := by
        simp only [classOf, hf]
        by_cases hd : (diffRecords b lr).isEmpty = true
        · simp [hd]
        · simp [hd]
      by_cases hd : (diffRecords b lr).isEmpty = true
      · simp only [classify, hf, if_pos hd, List.filter_cons, hfilt]
        simpa using ih
      · simp only [classify, hf, if_neg hd, List.filter_cons, hfilt]
        simpa using ih

theorem classify_toUpdate_fst_eq (idf : String) (lives : List Record) :
    ∀ B : List Record,
      (classify idf lives B).toUpdate.map Prod.fst =
        B.filter (fun r => classOf idf lives r == 1) := by
  intro B
  induction B with
  | nil => rfl
  | cons b bs ih =>
    cases hf : findLastKey idf (keyOf idf b) lives with
    | none =>
      have hc : classOf idf lives b = 0 := by simp [classOf, hf]
      simp only [classify, hf, List.filter_cons]
      simp [hc, ih]
    | some lr =>
      by_cases hd : (diffRecords b lr).isEmpty = true
      · have hc : classOf idf lives b = 2 := by simp [classOf, hf, hd]
        simp only [classify, hf, if_pos hd, List.filter_cons]
        simp [hc, ih]
      · have hc : classOf idf lives b = 1 := by simp [classOf, hf, hd]
        simp only [classify, hf, if_neg hd, List.filter_cons]
        simp [hc, ih]

theorem classify_unchanged_eq (idf : String) (lives : List Record) :
    ∀ B : List Record,
      (classify idf lives B).unchanged = B.filter (fun r => classOf idf lives r == 2) := by
  intro B
  induction B with
  | nil => rfl
  | cons b bs ih =>
    cases hf : findLastKey idf (keyOf idf b) lives with
    | none =>
      have hc : classOf idf lives b = 0 := by simp [classOf, hf]
      simp only [classify, hf, List.filter_cons]
      simp [hc, ih]
    | some lr =>
      by_cases hd : (diffRecords b lr).isEmpty = true
      · have hc : classOf idf lives b = 2 := by simp [classOf, hf, hd]
        simp only [classify, hf, if_pos hd, List.filter_cons]
        simp [hc, ih]
      · have hc : classOf idf lives b = 1 := by simp [classOf, hf, hd]
        simp only [classify, hf, if_neg hd, List.filter_cons]
        simp [hc, ih]

theorem count_filter_classes (g : Record → Nat) (hg : ∀ x, g x < 3) :
    ∀ (B : List Record) (r : Record),
      List.count r (B.filter fun x => g x == 0) +
        List.count r (B.filter fun x => g x == 1) +
        List.count r (B.filter fun x => g x == 2) = List.count r B := by
  intro B
  induction B with
  | nil => intro r; rfl
  | cons b bs ih =>
    intro r
    have hb : g b = 0 ∨ g b = 1 ∨ g b = 2 := by have := hg b; omega
    have hr := ih r
    rcases hb with h | h | h
    all_goals
      simp only [List.filter_cons, h]
      cases hbr : b == r <;> simp [List.count_cons, hbr] <;> omega

theorem reconcile_ok_classify {B L : List Record} {res : ReconResult}
    (hok : reconcile B L = ReconOutcome.ok res) :
    ∃ idf, res = classify idf L B := by
  unfold reconcile at hok
  cases h1 : inferIdentifier (schemaOf L) with
  | some idf =>
    rw [h1] at hok
    simp only [ReconOutcome.ok.injEq] at hok
    exact ⟨idf, hok.symm⟩
  | none =>
    rw [h1] at hok
    cases h2 : inferIdentifier (schemaOf B) with
    | some idf =>
      rw [h2] at hok
      simp only [ReconOutcome.ok.injEq] at hok
      exact ⟨idf, hok.symm⟩
    | none =>
      rw [h2] at hok
      cases hok

/-- C1: partition completeness — whenever `reconcile` succeeds, each backup
record lands in exactly one partition: the multiplicities of the three
partitions sum to the backup multiplicity, and the partitions are pairwise
disjoint. -/
theorem reconcile_partition_complete :
    ∀ (B L : List Record) (res : ReconResult), reconcile B L = ReconOutcome.ok res →
      (∀ r : Record,
         List.count r res.toInsert + List.count r (res.toUpdate.map Prod.fst) +
           List.count r res.unchanged = List.count r B) ∧
      (∀ r : Record, r ∈ res.toInsert →
         r ∉ res.toUpdate.map Prod.fst ∧ r ∉ res.unchanged) ∧
      (∀ r : Record, r ∈ res.toUpdate.map Prod.fst → r ∉ res.unchanged) := by
  intro B L res hok
  obtain ⟨idf, hres⟩ := reconcile_ok_classify hok
  subst hres
  rw [classify_toInsert_eq, classify_toUpdate_fst_eq, classify_unchanged_eq]
  refine ⟨?_, ?_, ?_⟩
  · intro r
    exact count_filter_classes (classOf idf L) (classOf_lt_three idf L) B r
  · intro r hr
    rw [List.mem_filter] at hr
    constructor
    · intro hmem
      rw [List.mem_filter] at hmem
      have h0 := hr.2
      have h1 := hmem.2
      simp at h0 h1
      omega
    · intro hmem
      rw [List.mem_filter] at hmem
      have h0 := hr.2
      have h1 := hmem.2
      simp at h0 h1
      omega
  · intro r hr hmem
    rw [List.mem_filter] at hr hmem
    have h0 := hr.2
    have h1 := hmem.2
    simp at h0 h1
    omega

/-- Witness for C1 at the end-to-end example of the spec. -/
theorem reconcile_partition_complete_witness :
    List.count (rIdQty 3 7) exRes1.toInsert +
      List.count (rIdQty 3 7) (exRes1.toUpdate.map Prod.fst) +
      List.count (rIdQty 3 7) exRes1.unchanged = List.count (rIdQty 3 7) exB1 :=
  (reconcile_partition_complete exB1 exL1 exRes1 (by decide)).1 (rIdQty 3 7)

theorem addKey_nodup {acc : List String} (k : String) (h : acc.Nodup) :
    (addKey acc k).Nodup := by
  unfold addKey
  cases hc : acc.contains k with
  | true => simpa using h
  | false =>
    have hk : k ∉ acc := by
      intro hmem
      have hco : acc.contains k = true := by simp [List.elem_eq_mem, hmem]
      rw [hco] at hc
      cases hc
    rw [if_neg (by simp [hc])]
    rw [List.nodup_append]
    refine ⟨h, List.nodup_singleton k, ?_⟩
    intro a ha hsing
    rcases List.mem_singleton.mp hsing with rfl
    exact hk ha

theorem recKeys_nodup : ∀ (r : Record) (acc : List String),
    acc.Nodup → (recKeys acc r).Nodup := by
  intro r
  induction r with
  | nil => intro acc h; exact h
  | cons kv t ih => intro acc h; exact ih (addKey acc kv.1) (addKey_nodup kv.1 h)

theorem foldl_recKeys_nodup : ∀ (rs : List Record) (acc : List String),
    acc.Nodup → (rs.foldl recKeys acc).Nodup := by
  intro rs
  induction rs with
  | nil => intro acc h; exact h
  | cons r t ih => intro acc h; exact ih (recKeys acc r) (recKeys_nodup r acc h)

theorem unionSchema_nodup (b lr : Record) : (unionSchema b lr).Nodup :=
  foldl_recKeys_nodup [b, lr] [] List.nodup_nil

theorem mem_addKey {acc : List String} {k g : String} :
    g ∈ addKey acc k ↔ g ∈ acc ∨ g = k := by
  unfold addKey
  cases hc : acc.contains k with
  | true =>
    have hk : k ∈ acc := by
      have := hc
      simp [List.elem_eq_mem] at this
      exact this
    rw [if_pos rfl]
    constructor
    · exact Or.inl
    · rintro (hg | rfl)
      · exact hg
      · exact hk
  | false =>
    rw [if_neg (by simp [hc])]
    simp

theorem mem_recKeys : ∀ (r : Record) (acc : List String) (g : String),
    g ∈ recKeys acc r ↔ g ∈ acc ∨ g ∈ fieldNames r := by
  intro r
  induction r with
  | nil => intro acc g; simp [recKeys, fieldNames]
  | cons kv t ih =>
    intro acc g
    rw [show recKeys acc (kv :: t) = recKeys (addKey acc kv.1) t from rfl, ih, mem_addKey]
    simp [fieldNames, or_assoc]

theorem mem_unionSchema {b lr : Record} {g : String} :
    g ∈ unionSchema b lr ↔ g ∈ fieldNames b ∨ g ∈ fieldNames lr := by
  rw [show unionSchema b lr = recKeys (recKeys [] b) lr from rfl, mem_recKeys, mem_recKeys]
  simp

theorem diffRecords_map_fst (b lr : Record) :
    (diffRecords b lr).map (fun e => e.1) =
      (unionSchema b lr).filter
        (fun f => !(normalize (getField b f) == normalize (getField lr f))) := by
  unfold diffRecords
  generalize unionSchema b lr = s
  induction s with
  | nil => rfl
  | cons f fs ih =>
    cases hbeq : (normalize (getField b f) == normalize (getField lr f)) with
    | true =>
      rw [List.filterMap_cons_none (by rw [if_pos hbeq]), List.filter_cons,
        if_neg (by simp [hbeq])]
      exact ih
    | false =>
      rw [List.filterMap_cons_some (by rw [if_neg (by simp [hbeq])]), List.map_cons,
        List.filter_cons, if_pos (by simp [hbeq]), ih]

theorem diffRecords_nil_iff (b lr : Record) :
    diffRecords b lr = [] ↔
      ∀ f ∈ unionSchema b lr, normalize (getField b f) = normalize (getField lr f) := by
  unfold diffRecords
  generalize unionSchema b lr = s
  induction s with
  | nil => simp
  | cons f fs ih =>
    cases hbeq : (normalize (getField b f) == normalize (getField lr f)) with
    | true =>
      have heq : normalize (getField b f) = normalize (getField lr f) := eq_of_beq hbeq
      rw [List.filterMap_cons_none (by rw [if_pos hbeq]), ih]
      constructor
      · intro h f' hf'
        rcases List.mem_cons.mp hf' with rfl | hmem
        · exact heq
        · exact h f' hmem
      · intro h f' hf'
        exact h f' (List.mem_cons_of_mem f hf')
    | false =>
      rw [List.filterMap_cons_some (by rw [if_neg (by simp [hbeq])])]
      constructor
      · intro h
        cases h
      · intro h
        exfalso
        have heq := h f (List.mem_cons_self f fs)
        rw [heq] at hbeq
        simp at hbeq

/-- C4: record comparison yields one diff entry exactly for the union
schema fields whose normalized values differ (the union schema has no
duplicate fields), two records are classified equal precisely when the
diff is empty, and records differing only in whitespace or
numeric-versus-string representation reconcile as unchanged. -/
theorem diffRecords_normalized_equality :
    (∀ b lr : Record,
       (diffRecords b lr).map (fun e => e.1) =
         (unionSchema b lr).filter
           (fun f => !(normalize (getField b f) == normalize (getField lr f)))) ∧
    (∀ b lr : Record, (unionSchema b lr).Nodup) ∧
    (∀ b lr : Record,
       diffRecords b lr = [] ↔
         ∀ f ∈ unionSchema b lr, normalize (getField b f) = normalize (getField lr f)) ∧
    reconcile exBackup4 exLive4 = ReconOutcome.ok ⟨"id", [], [], exBackup4⟩ :=
  ⟨diffRecords_map_fst, unionSchema_nodup, diffRecords_nil_iff, by decide⟩

/-- Witness for C4 at the representation-drift example records. -/
theorem diffRecords_normalized_equality_witness :
    diffRecords [("id", Value.str "1"), ("qty", Value.str " 5 ")]
        [("id", Value.num 1), ("qty", Value.num 5)] = [] :=
  (diffRecords_normalized_equality.2.2.1
      [("id", Value.str "1"), ("qty", Value.str " 5 ")]
      [("id", Value.num 1), ("qty", Value.num 5)]).mpr (by decide)

theorem setStyle4_setStyle4 (e : Elem) : setStyle4 (setStyle4 e) = setStyle4 e := rfl

theorem isStApp_setStyle4 (e : Elem) : isStApp (setStyle4 e) = isStApp e := rfl

theorem divFix_of_div {e : Elem} (h : (e.tag == "div") = true) :
    divFix e = setStyle4 e := by
  unfold divFix
  rw [if_pos h]

theorem divFix_of_not {e : Elem} (h : (e.tag == "div") = false) : divFix e = e := by
  unfold divFix
  rw [if_neg (by simp [h])]

theorem ultraSelFix_of_sel {e : Elem} (h : isUltraSel e = true) :
    ultraSelFix e = setStyle4 e := by
  unfold ultraSelFix
  rw [if_pos h]

theorem ultraSelFix_of_not {e : Elem} (h : isUltraSel e = false) : ultraSelFix e = e := by
  unfold ultraSelFix
  rw [if_neg (by simp [h])]

theorem divFix_setStyle4 (e : Elem) : divFix (setStyle4 e) = setStyle4 e := by
  unfold divFix
  cases ht : ((setStyle4 e).tag == "div") with
  | true => rw [if_pos rfl]; exact setStyle4_setStyle4 e
  | false => rw [if_neg (by simp)]

theorem ultraSelFix_setStyle4 (e : Elem) : ultraSelFix (setStyle4 e) = setStyle4 e := by
  unfold ultraSelFix
  cases ht : isUltraSel (setStyle4 e) with
  | true => rw [if_pos rfl]; exact setStyle4_setStyle4 e
  | false => rw [if_neg (by simp)]

theorem setStyle4_divFix (e : Elem) : setStyle4 (divFix e) = setStyle4 e := by
  cases ht : (e.tag == "div") with
  | true => rw [divFix_of_div ht, setStyle4_setStyle4]
  | false => rw [divFix_of_not ht]

theorem setStyle4_ultraSelFix (e : Elem) : setStyle4 (ultraSelFix e) = setStyle4 e := by
  cases ht : isUltraSel e with
  | true => rw [ultraSelFix_of_sel ht, setStyle4_setStyle4]
  | false => rw [ultraSelFix_of_not ht]

theorem isStApp_divFix (e : Elem) : isStApp (divFix e) = isStApp e := by
  cases ht : (e.tag == "div") with
  | true => rw [divFix_of_div ht, isStApp_setStyle4]
  | false => rw [divFix_of_not ht]

theorem isStApp_ultraSelFix (e : Elem) : isStApp (ultraSelFix e) = isStApp e := by
  cases ht : isUltraSel e with
  | true => rw [ultraSelFix_of_sel ht, isStApp_setStyle4]
  | false => rw [ultraSelFix_of_not ht]

theorem ultraPointFix_setStyle4 (e : Elem) :
    ultraSelFix (divFix (setStyle4 e)) = setStyle4 e := by
  rw [divFix_setStyle4, ultraSelFix_setStyle4]

theorem setStyle4_ultraPointFix (e : Elem) :
    setStyle4 (ultraSelFix (divFix e)) = setStyle4 e := by
  rw [setStyle4_ultraSelFix, setStyle4_divFix]

theorem isStApp_ultraPointFix (e : Elem) :
    isStApp (ultraSelFix (divFix e)) = isStApp e := by
  rw [isStApp_ultraSelFix, isStApp_divFix]

theorem ultraPointFix_idem (e : Elem) :
    ultraSelFix (divFix (ultraSelFix (divFix e))) = ultraSelFix (divFix e) := by
  cases h2 : (e.tag == "div") with
  | true => rw [divFix_of_div h2, ultraSelFix_setStyle4, divFix_setStyle4, ultraSelFix_setStyle4]
  | false =>
    rw [divFix_of_not h2]
    cases h3 : isUltraSel e with
    | true => rw [ultraSelFix_of_sel h3, divFix_setStyle4, ultraSelFix_setStyle4]
    | false => rw [ultraSelFix_of_not h3, divFix_of_not h2, ultraSelFix_of_not h3]

theorem updateFirst_cons (p : Elem → Bool) (s : Elem → Elem) (e : Elem) (es : List Elem) :
    updateFirst p s (e :: es) = if p e then s e :: es else e :: updateFirst p s es := rfl

theorem updateFirst_updateFirst (p : Elem → Bool) (s : Elem → Elem)
    (hp : ∀ e, p (s e) = p e) (hs : ∀ e, s (s e) = s e) :
    ∀ l, updateFirst p s (updateFirst p s l) = updateFirst p s l := by
  intro l
  induction l with
  | nil => rfl
  | cons e es ih =>
    cases hpe : p e with
    | true =>
      rw [updateFirst_cons, if_pos hpe, updateFirst_cons,
        if_pos (by rw [hp e]; exact hpe), hs e]
    | false =>
      rw [updateFirst_cons, if_neg (by simp [hpe]), updateFirst_cons,
        if_neg (by simp [hpe]), ih]

theorem map_updateFirst (p : Elem → Bool) (s g : Elem → Elem)
    (hgs : ∀ e, g (s e) = s e) (hsg : ∀ e, s (g e) = s e) (hpg : ∀ e, p (g e) = p e) :
    ∀ l, (updateFirst p s l).map g = updateFirst p s (l.map g) := by
  intro l
  induction l with
  | nil => rfl
  | cons e es ih =>
    cases hpe : p e with
    | true =>
      rw [updateFirst_cons, if_pos hpe, List.map_cons, List.map_cons, updateFirst_cons,
        if_pos (by rw [hpg e]; exact hpe), hgs e, hsg e]
    | false =>
      rw [updateFirst_cons, if_neg (by simp [hpe]), List.map_cons, List.map_cons,
        updateFirst_cons, if_neg (by simp [hpg e, hpe]), ih]

theorem find?_updateFirst (p : Elem → Bool) (s : Elem → Elem)
    (hp : ∀ e, p (s e) = p e) :
    ∀ l, (updateFirst p s l).find? p = (l.find? p).map s := by
  intro l
  induction l with
  | nil => rfl
  | cons e es ih =>
    cases hpe : p e with
    | true =>
      rw [updateFirst_cons, if_pos hpe,
        List.find?_cons_of_pos _ (by rw [hp e]; exact hpe),
        List.find?_cons_of_pos _ hpe]
      rfl
    | false =>
      rw [updateFirst_cons, if_neg (by simp [hpe]),
        List.find?_cons_of_neg _ (by simp [hpe]),
        List.find?_cons_of_neg _ (by simp [hpe]), ih]

theorem map_map_idem (g : Elem → Elem) (hg : ∀ e, g (g e) = g e) (l : List Elem) :
    (l.map g).map g = l.map g := by
  rw [List.map_map]
  exact List.map_congr_left (fun a _ => hg a)

theorem ultraFastFix_elems (d : Document) :
    (ultraFastFix d).elems =
      (updateFirst isStApp setStyle4 d.elems).map (fun e => ultraSelFix (divFix e)) := by
  show ((updateFirst isStApp setStyle4 d.elems).map divFix).map ultraSelFix = _
  rw [List.map_map]
  rfl

theorem doc_ext {a b : Document} (h1 : a.body = b.body) (h2 : a.elems = b.elems) :
    a = b := by
  cases a
  cases b
  cases h1
  cases h2
  rfl

theorem ultraFastFix_ultraFastFix (d : Document) :
    ultraFastFix (ultraFastFix d) = ultraFastFix d := by
  apply doc_ext
  · show setStyle4 (ultraFastFix d).body = (ultraFastFix d).body
    show setStyle4 (setStyle4 d.body) = setStyle4 d.body
    exact setStyle4_setStyle4 d.body
  · rw [ultraFastFix_elems, ultraFastFix_elems d,
      ← map_updateFirst isStApp setStyle4 (fun e => ultraSelFix (divFix e))
        ultraPointFix_setStyle4 setStyle4_ultraPointFix isStApp_ultraPointFix,
      updateFirst_updateFirst isStApp setStyle4 isStApp_setStyle4 setStyle4_setStyle4,
      map_map_idem (fun e => ultraSelFix (divFix e)) ultraPointFix_idem]

/-- C8: `ultraFastFix` is idempotent on document style state, and after one
run the body, every div, every queried Streamlit element, and the first
`.stApp` container carry the forced style values, so a second run changes
nothing. -/
theorem ultraFastFix_idempotent :
    (∀ d : Document, ultraFastFix (ultraFastFix d) = ultraFastFix d) ∧
    (∀ d : Document,
       (ultraFastFix d).body.style.backgroundColor = "#ffffff" ∧
       (ultraFastFix d).body.style.transition = "none" ∧
       (ultraFastFix d).body.style.opacity = "1" ∧
       (ultraFastFix d).body.style.animation = "none") ∧
    (∀ (d : Document) (e : Elem), e ∈ (ultraFastFix d).elems →
       (e.tag == "div" || isUltraSel e) = true →
       e.style.backgroundColor = "#ffffff" ∧ e.style.transition = "none" ∧
         e.style.opacity = "1" ∧ e.style.animation = "none") ∧
    (∀ (d : Document) (e : Elem), (ultraFastFix d).elems.find? isStApp = some e →
       e.style.backgroundColor = "#ffffff" ∧ e.style.transition = "none" ∧
         e.style.opacity = "1" ∧ e.style.animation = "none") := by
  refine ⟨fun d => ultraFastFix_ultraFastFix d, fun d => ⟨rfl, rfl, rfl, rfl⟩, ?_, ?_⟩
  · intro d e he hp
    rw [ultraFastFix_elems] at he
    rcases List.mem_map.mp he with ⟨x, hx, rfl⟩
    cases h2 : (x.tag == "div") with
    | true =>
      rw [divFix_of_div h2, ultraSelFix_setStyle4]
      exact ⟨rfl, rfl, rfl, rfl⟩
    | false =>
      rw [divFix_of_not h2] at hp ⊢
      cases h3 : isUltraSel x with
      | true =>
        rw [ultraSelFix_of_sel h3]
        exact ⟨rfl, rfl, rfl, rfl⟩
      | false =>
        rw [ultraSelFix_of_not h3] at hp
        simp [h2, h3] at hp
  · intro d e hf
    rw [ultraFastFix_elems, List.find?_map] at hf
    have hcomp : (isStApp ∘ fun e => ultraSelFix (divFix e)) = isStApp :=
      funext (fun x => isStApp_ultraPointFix x)
    rw [hcomp, find?_updateFirst isStApp setStyle4 isStApp_setStyle4] at hf
    cases hfind : d.elems.find? isStApp with
    | none =>
      rw [hfind] at hf
      cases hf
    | some x =>
      rw [hfind] at hf
      simp only [Option.map_some'] at hf
      rw [ultraPointFix_setStyle4 x] at hf
      injection hf with he
      subst he
      exact ⟨rfl, rfl, rfl, rfl⟩

/-- Witness for C8 at a concrete document with a div, an app container, an
untargeted span and a button. -/
theorem ultraFastFix_idempotent_witness :
    ultraFastFix (ultraFastFix exDoc) = ultraFastFix exDoc ∧
    (ultraFastFix exDoc).body.style.opacity = "1" ∧
    ((setStyle4 exDivElem).style.backgroundColor = "#ffffff" ∧
      (setStyle4 exDivElem).style.transition = "none" ∧
      (setStyle4 exDivElem).style.opacity = "1" ∧
      (setStyle4 exDivElem).style.animation = "none") ∧
    ((setStyle4 exAppElem).style.backgroundColor = "#ffffff" ∧
      (setStyle4 exAppElem).style.transition = "none" ∧
      (setStyle4 exAppElem).style.opacity = "1" ∧
      (setStyle4 exAppElem).style.animation = "none") :=
  ⟨ultraFastFix_idempotent.1 exDoc,
   (ultraFastFix_idempotent.2.1 exDoc).2.2.1,
   ultraFastFix_idempotent.2.2.1 exDoc (setStyle4 exDivElem) (by decide) (by decide),
   ultraFastFix_idempotent.2.2.2 exDoc (setStyle4 exAppElem) (by decide)⟩

theorem forall2_of_updateFirst (p : Elem → Bool) (s : Elem → Elem) :
    ∀ l : List Elem,
      List.Forall₂ (fun a b => b = a ∨ (p a = true ∧ b = s a)) l (updateFirst p s l) := by
  intro l
  induction l with
  | nil => exact List.Forall₂.nil
  | cons e es ih =>
    cases hpe : p e with
    | true =>
      rw [updateFirst_cons, if_pos hpe]
      exact List.Forall₂.cons (Or.inr ⟨hpe, rfl⟩)
        (List.forall₂_same.mpr (fun x _ => Or.inl rfl))
    | false =>
      rw [updateFirst_cons, if_neg (by simp [hpe])]
      exact List.Forall₂.cons (Or.inl rfl) ih

theorem forall2_of_map (g : Elem → Elem) :
    ∀ l : List Elem, List.Forall₂ (fun a b => b = g a) l (l.map g) := by
  intro l
  induction l with
  | nil => exact List.Forall₂.nil
  | cons e es ih => exact List.Forall₂.cons rfl ih

theorem forall2_comp {α : Type} {R S : α → α → Prop} :
    ∀ (l₁ l₂ l₃ : List α), List.Forall₂ R l₁ l₂ → List.Forall₂ S l₂ l₃ →
      List.Forall₂ (fun a c => ∃ b, R a b ∧ S b c) l₁ l₃ := by
  intro l₁ l₂ l₃ h12
  induction h12 generalizing l₃ with
  | nil =>
    intro h23
    cases h23
    exact List.Forall₂.nil
  | @cons x y t₁ t₂ hab h12' ih =>
    intro h23
    cases h23 with
    | cons hbc h23' => exact List.Forall₂.cons ⟨y, hab, hbc⟩ (ih _ h23')

theorem sameShape_refl (a : Elem) : sameShape a a := ⟨rfl, rfl, rfl, rfl, rfl⟩

theorem sameShape_trans {a b c : Elem} (h1 : sameShape a b) (h2 : sameShape b c) :
    sameShape a c := by
  obtain ⟨t1, c1, i1, a1, o1⟩ := h1
  obtain ⟨t2, c2, i2, a2, o2⟩ := h2
  exact ⟨t2.trans t1, c2.trans c1, i2.trans i1, a2.trans a1, o2.trans o1⟩

theorem sameShape_setStyle4 (e : Elem) : sameShape e (setStyle4 e) :=
  ⟨rfl, rfl, rfl, rfl, rfl⟩

theorem sameShape_setStyle3 (e : Elem) : sameShape e (setStyle3 e) :=
  ⟨rfl, rfl, rfl, rfl, rfl⟩

theorem decorationFix_of_not {e : Elem} (h : isDecoration e = false) :
    decorationFix e = e := by
  unfold decorationFix
  rw [if_neg (by simp [h])]

theorem criticalFix_of_not {e : Elem} (h : isCritical e = false) :
    criticalFix e = e := by
  unfold criticalFix
  rw [if_neg (by simp [h])]

theorem sameShape_decorationFix (e : Elem) : sameShape e (decorationFix e) := by
  cases hd : isDecoration e with
  | true =>
    unfold decorationFix
    rw [if_pos hd]
    exact sameShape_setStyle4 e
  | false =>
    rw [decorationFix_of_not hd]
    exact sameShape_refl e

theorem sameShape_criticalFix (e : Elem) : sameShape e (criticalFix e) := by
  cases hd : isCritical e with
  | true =>
    unfold criticalFix
    rw [if_pos hd]
    exact sameShape_setStyle3 e
  | false =>
    rw [criticalFix_of_not hd]
    exact sameShape_refl e

/-- C9: the frame of `performanceOptimizedAntiFade` — every element keeps
its tag, classes, testid, non-style attributes and untargeted style
properties; an element matching none of the selectors is untouched
entirely; the body keeps everything but its four targeted style
properties. -/
theorem performanceOptimizedAntiFade_frame :
    ∀ d : Document,
      List.Forall₂ elemFrame d.elems (performanceOptimizedAntiFade d).elems ∧
      sameShape d.body (performanceOptimizedAntiFade d).body := by
  intro d
  constructor
  · have h1 := forall2_of_updateFirst isStApp setStyle4 d.elems
    have h2 := forall2_of_map decorationFix (updateFirst isStApp setStyle4 d.elems)
    have h3 := forall2_of_map criticalFix
      ((updateFirst isStApp setStyle4 d.elems).map decorationFix)
    have hc := forall2_comp _ _ _ (forall2_comp _ _ _ h1 h2) h3
    refine List.Forall₂.imp ?_ hc
    intro a c h
    obtain ⟨b2, ⟨b1, hab1, hb2⟩, hb3⟩ := h
    constructor
    · have s1 : sameShape a b1 := by
        rcases hab1 with rfl | ⟨_, rfl⟩
        · exact sameShape_refl _
        · exact sameShape_setStyle4 _
      have s2 : sameShape b1 b2 := by
        subst hb2
        exact sameShape_decorationFix b1
      have s3 : sameShape b2 c := by
        subst hb3
        exact sameShape_criticalFix b2
      exact sameShape_trans (sameShape_trans s1 s2) s3
    · intro hnone
      simp only [Bool.or_eq_false_iff] at hnone
      obtain ⟨⟨hsa, hde⟩, hcr⟩ := hnone
      rcases hab1 with rfl | ⟨hsa', _⟩
      · subst hb2
        subst hb3
        rw [decorationFix_of_not hde, criticalFix_of_not hcr]
      · rw [hsa'] at hsa
        cases hsa
  · exact sameShape_setStyle4 d.body

/-- Witness for C9 at the concrete example document. -/
theorem performanceOptimizedAntiFade_frame_witness :
    List.Forall₂ elemFrame exDoc.elems (performanceOptimizedAntiFade exDoc).elems ∧
    sameShape exDoc.body (performanceOptimizedAntiFade exDoc).body :=
  performanceOptimizedAntiFade_frame exDoc

theorem getField_cons (kv : String × Value) (t : Record) (g : String) :
    getField (kv :: t) g = if kv.1 == g then kv.2 else getField t g := rfl

theorem getField_setField_same : ∀ (r : Record) (f : String) (v : Value),
    getField (setField r f v) f = v := by
  intro r f v
  induction r with
  | nil =>
    show getField [(f, v)] f = v
    rw [getField_cons, if_pos (by simp)]
  | cons kv t ih =>
    show getField (if kv.1 == f then (f, v) :: t else kv :: setField t f v) f = v
    cases hk : (kv.1 == f) with
    | true =>
      rw [if_pos rfl, getField_cons, if_pos (by simp)]
    | false =>
      rw [if_neg (by simp), getField_cons, if_neg (by simp [hk]), ih]

theorem getField_setField_ne : ∀ (r : Record) (f g : String) (v : Value), g ≠ f →
    getField (setField r f v) g = getField r g := by
  intro r f g v hne
  induction r with
  | nil =>
    show getField [(f, v)] g = getField [] g
    rw [getField_cons, if_neg (by simp only [beq_iff_eq]; exact Ne.symm hne)]
  | cons kv t ih =>
    show getField (if kv.1 == f then (f, v) :: t else kv :: setField t f v) g =
      getField (kv :: t) g
    cases hk : (kv.1 == f) with
    | true =>
      have hkv : kv.1 = f := eq_of_beq hk
      rw [if_pos rfl, getField_cons, getField_cons,
        if_neg (by simp only [beq_iff_eq]; exact Ne.symm hne),
        if_neg (by simp only [hkv, beq_iff_eq]; exact Ne.symm hne)]
    | false =>
      rw [if_neg (by simp)]
      cases hkg : (kv.1 == g) with
      | true => rw [getField_cons, getField_cons, if_pos hkg, if_pos hkg]
      | false =>
        rw [getField_cons, getField_cons, if_neg (by simp [hkg]),
          if_neg (by simp [hkg]), ih]

theorem fieldNames_setField : ∀ (r : Record) (f : String) (v : Value) (g : String),
    g ∈ fieldNames (setField r f v) ↔ g = f ∨ g ∈ fieldNames r := by
  intro r f v g
  induction r with
  | nil => simp [setField, fieldNames]
  | cons kv t ih =>
    show g ∈ fieldNames (if kv.1 == f then (f, v) :: t else kv :: setField t f v) ↔ _
    cases hk : (kv.1 == f) with
    | true =>
      have hkv : kv.1 = f := eq_of_beq hk
      rw [if_pos rfl]
      simp only [fieldNames, List.map_cons, List.mem_cons, hkv]
      tauto
    | false =>
      rw [if_neg (by simp)]
      simp only [fieldNames, List.map_cons, List.mem_cons] at ih ⊢
      rw [ih]
      tauto

theorem getField_applyDiff_notin : ∀ (d : Diff) (lr : Record) (f : String),
    f ∉ d.map (fun e => e.1) → getField (applyDiff lr d) f = getField lr f := by
  intro d
  induction d with
  | nil => intro lr f _; rfl
  | cons e t ih =>
    intro lr f hf
    simp only [List.map_cons, List.mem_cons] at hf
    push_neg at hf
    show getField (applyDiff (setField lr e.1 e.2.2) t) f = getField lr f
    rw [ih _ f hf.2, getField_setField_ne _ _ _ _ hf.1]

theorem getField_applyDiff_mem : ∀ (d : Diff) (lr : Record) (f : String) (ov nv : Value),
    (d.map (fun e => e.1)).Nodup → (f, ov, nv) ∈ d →
    getField (applyDiff lr d) f = nv := by
  intro d
  induction d with
  | nil => intro lr f ov nv _ h; cases h
  | cons e t ih =>
    intro lr f ov nv hnd hmem
    simp only [List.map_cons, List.nodup_cons] at hnd
    rcases List.mem_cons.mp hmem with rfl | hmem'
    · show getField (applyDiff (setField lr f nv) t) f = nv
      rw [getField_applyDiff_notin t _ f hnd.1, getField_setField_same]
    · show getField (applyDiff (setField lr e.1 e.2.2) t) f = nv
      exact ih _ f ov nv hnd.2 hmem'

theorem fieldNames_applyDiff : ∀ (d : Diff) (lr : Record) (g : String),
    g ∈ fieldNames (applyDiff lr d) ↔ g ∈ d.map (fun e => e.1) ∨ g ∈ fieldNames lr := by
  intro d
  induction d with
  | nil =>
    intro lr g
    show g ∈ fieldNames lr ↔ g ∈ ([] : List String) ∨ g ∈ fieldNames lr
    simp
  | cons e t ih =>
    intro lr g
    show g ∈ fieldNames (applyDiff (setField lr e.1 e.2.2) t) ↔ _
    rw [ih, fieldNames_setField]
    simp only [List.map_cons, List.mem_cons]
    tauto

theorem keyOf_applyDiff {idf : String} {d : Diff} (lr : Record)
    (h : idf ∉ d.map (fun e => e.1)) : keyOf idf (applyDiff lr d) = keyOf idf lr := by
  unfold keyOf
  rw [getField_applyDiff_notin d lr idf h]

theorem mem_diffRecords {b lr : Record} {f : String} {ov nv : Value}
    (h : (f, ov, nv) ∈ diffRecords b lr) :
    ov = getField lr f ∧ nv = getField b f ∧
      ¬ normalize (getField b f) = normalize (getField lr f) ∧ f ∈ unionSchema b lr := by
  unfold diffRecords at h
  rcases List.mem_filterMap.mp h with ⟨g, hg, hsome⟩
  by_cases hbeq : (normalize (getField b g) == normalize (getField lr g)) = true
  · rw [if_pos hbeq] at hsome
    cases hsome
  · rw [if_neg hbeq] at hsome
    simp only [Option.some.injEq, Prod.mk.injEq] at hsome
    obtain ⟨rfl, h2, h3⟩ := hsome
    refine ⟨h2.symm, h3.symm, ?_, hg⟩
    intro heq
    exact hbeq (beq_iff_eq.mpr heq)

theorem idf_not_mem_diff_fields {idf : String} {b lr : Record}
    (hkey : keyOf idf lr = keyOf idf b) :
    idf ∉ (diffRecords b lr).map (fun e => e.1) := by
  intro hmem
  rcases List.mem_map.mp hmem with ⟨e, he, hfst⟩
  rcases e with ⟨f, ov, nv⟩
  simp only at hfst
  subst hfst
  have h := mem_diffRecords he
  exact h.2.2.1 hkey.symm

theorem findLastKey_cons (idf k : String) (x : Record) (t : List Record) :
    findLastKey idf k (x :: t) = match findLastKey idf k t with
      | some r => some r
      | none => if keyOf idf x == k then some x else none := rfl

theorem findLastKey_some {idf k : String} : ∀ {L : List Record} {lr : Record},
    findLastKey idf k L = some lr → lr ∈ L ∧ keyOf idf lr = k := by
  intro L
  induction L with
  | nil => intro lr h; cases h
  | cons x t ih =>
    intro lr h
    rw [findLastKey_cons] at h
    cases hft : findLastKey idf k t with
    | some r =>
      rw [hft] at h
      injection h with h1
      subst h1
      have hr := ih hft
      exact ⟨List.mem_cons_of_mem x hr.1, hr.2⟩
    | none =>
      rw [hft] at h
      cases hk : (keyOf idf x == k) with
      | true =>
        rw [if_pos hk] at h
        injection h with h1
        subst h1
        exact ⟨List.mem_cons_self x t, eq_of_beq hk⟩
      | false =>
        rw [if_neg (by simp [hk])] at h
        cases h

theorem findLastKey_none {idf k : String} : ∀ {L : List Record},
    (∀ lr ∈ L, keyOf idf lr ≠ k) → findLastKey idf k L = none := by
  intro L
  induction L with
  | nil => intro _; rfl
  | cons x t ih =>
    intro h
    rw [findLastKey_cons, ih (fun lr hlr => h lr (List.mem_cons_of_mem x hlr))]
    show (if keyOf idf x == k then some x else none) = none
    rw [if_neg (by simp only [beq_iff_eq]; exact h x (List.mem_cons_self x t))]

theorem findLastKey_mem_unique {idf : String} : ∀ {L : List Record} {lr : Record},
    (L.map (keyOf idf)).Nodup → lr ∈ L → findLastKey idf (keyOf idf lr) L = some lr := by
  intro L
  induction L with
  | nil => intro lr _ h; cases h
  | cons x t ih =>
    intro lr hnd hmem
    simp only [List.map_cons, List.nodup_cons] at hnd
    rcases List.mem_cons.mp hmem with heq | hmem'
    · rw [heq]
      have hnone : findLastKey idf (keyOf idf x) t = none := by
        apply findLastKey_none
        intro r hr hkr
        have hm : keyOf idf r ∈ t.map (keyOf idf) := List.mem_map_of_mem (keyOf idf) hr
        rw [hkr] at hm
        exact hnd.1 hm
      rw [findLastKey_cons, hnone]
      show (if keyOf idf x == keyOf idf x then some x else none) = some x
      rw [if_pos (by simp)]
    · rw [findLastKey_cons, ih hnd.2 hmem']

theorem findLastKey_append (idf k : String) : ∀ (xs ys : List Record),
    findLastKey idf k (xs ++ ys) = match findLastKey idf k ys with
      | some r => some r
      | none => findLastKey idf k xs := by
  intro xs ys
  induction xs with
  | nil =>
    show findLastKey idf k ys = _
    cases h : findLastKey idf k ys with
    | some r => rfl
    | none => rfl
  | cons x t ih =>
    rw [show (x :: t) ++ ys = x :: (t ++ ys) from rfl, findLastKey_cons, ih,
      findLastKey_cons]
    cases h : findLastKey idf k ys with
    | some r => rfl
    | none => rfl

theorem updElem_cons (idf : String) (u : Record × Diff) (us : List (Record × Diff))
    (e : Record) :
    updElem idf (u :: us) e =
      updElem idf us (if keyOf idf e == keyOf idf u.1 then applyDiff e u.2 else e) := rfl

theorem foldl_applyUpdateOne (idf : String) :
    ∀ (us : List (Record × Diff)) (L : List Record),
      us.foldl (fun ls u => applyUpdateOne idf u ls) L = L.map (updElem idf us) := by
  intro us
  induction us with
  | nil =>
    intro L
    show L = L.map (updElem idf [])
    have h1 : L.map (updElem idf []) = L.map id := List.map_congr_left (fun a _ => rfl)
    rw [h1, List.map_id]
  | cons u us ih =>
    intro L
    show us.foldl _ (applyUpdateOne idf u L) = _
    rw [ih (applyUpdateOne idf u L)]
    unfold applyUpdateOne
    rw [List.map_map]
    apply List.map_congr_left
    intro a _
    rfl

theorem updElem_no_match (idf : String) : ∀ (us : List (Record × Diff)) (e : Record),
    (∀ u ∈ us, keyOf idf u.1 ≠ keyOf idf e) → updElem idf us e = e := by
  intro us
  induction us with
  | nil => intro e _; rfl
  | cons u t ih =>
    intro e h
    rw [updElem_cons,
      if_neg (by simp only [beq_iff_eq]; exact fun hh => h u (List.mem_cons_self u t) hh.symm)]
    exact ih e (fun v hv => h v (List.mem_cons_of_mem u hv))

theorem keyOf_updElem (idf : String) : ∀ (us : List (Record × Diff)) (e : Record),
    (∀ u ∈ us, idf ∉ u.2.map (fun x => x.1)) →
    keyOf idf (updElem idf us e) = keyOf idf e := by
  intro us
  induction us with
  | nil => intro e _; rfl
  | cons u t ih =>
    intro e h
    cases hk : (keyOf idf e == keyOf idf u.1) with
    | true =>
      rw [updElem_cons, if_pos hk, ih _ (fun v hv => h v (List.mem_cons_of_mem u hv))]
      exact keyOf_applyDiff e (h u (List.mem_cons_self u t))
    | false =>
      rw [updElem_cons, if_neg (by simp [hk])]
      exact ih _ (fun v hv => h v (List.mem_cons_of_mem u hv))

theorem updElem_single (idf : String) : ∀ (us : List (Record × Diff)) (e b : Record)
    (d : Diff),
    (b, d) ∈ us →
    keyOf idf e = keyOf idf b →
    (∀ u ∈ us, keyOf idf u.1 = keyOf idf e → u = (b, d)) →
    (us.map Prod.fst).Nodup →
    keyOf idf (applyDiff e d) = keyOf idf e →
    updElem idf us e = applyDiff e d := by
  intro us
  induction us with
  | nil => intro e b d hmem; cases hmem
  | cons u t ih =>
    intro e b d hmem hke huniq hnd hkeep
    simp only [List.map_cons, List.nodup_cons] at hnd
    cases hk : (keyOf idf e == keyOf idf u.1) with
    | true =>
      have hu : u = (b, d) := huniq u (List.mem_cons_self u t) (eq_of_beq hk).symm
      subst hu
      rw [updElem_cons, if_pos hk]
      have hnot : (b, d) ∉ t := by
        intro hmm
        exact hnd.1 (List.mem_map_of_mem Prod.fst hmm)
      apply updElem_no_match
      intro v hv hkv
      have hv2 : v = (b, d) := huniq v (List.mem_cons_of_mem _ hv) (by rw [hkv, hkeep])
      exact absurd (hv2 ▸ hv) hnot
    | false =>
      have hne : u ≠ (b, d) := by
        intro he
        subst he
        rw [hke] at hk
        simp at hk
      have hmem' : (b, d) ∈ t := by
        rcases List.mem_cons.mp hmem with he | h'
        · exact absurd he.symm hne
        · exact h'
      rw [updElem_cons, if_neg (by simp [hk])]
      exact ih e b d hmem' hke
        (fun v hv hkv => huniq v (List.mem_cons_of_mem u hv) hkv) hnd.2 hkeep

theorem classify_idField (idf : String) (lives : List Record) :
    ∀ B : List Record, (classify idf lives B).idField = idf := by
  intro B
  induction B with
  | nil => rfl
  | cons b bs ih =>
    cases hf : findLastKey idf (keyOf idf b) lives with
    | none => simp only [classify, hf]; exact ih
    | some lr =>
      by_cases hd : (diffRecords b lr).isEmpty = true
      · simp only [classify, hf, if_pos hd]; exact ih
      · simp only [classify, hf, if_neg hd]; exact ih

theorem classOf_eq_zero {idf : String} {lives : List Record} {r : Record} :
    classOf idf lives r = 0 ↔ findLastKey idf (keyOf idf r) lives = none := by
  unfold classOf
  cases hf : findLastKey idf (keyOf idf r) lives with
  | none => simp
  | some lr =>
    by_cases hd : (diffRecords r lr).isEmpty = true
    · simp [hd]
    · simp [hd]

theorem diffRecords_self (r : Record) : diffRecords r r = [] :=
  (diffRecords_nil_iff r r).mpr (fun _ _ => rfl)

theorem mem_toUpdate (idf : String) (lives : List Record) :
    ∀ {B : List Record} {u : Record × Diff},
      u ∈ (classify idf lives B).toUpdate →
      u.1 ∈ B ∧ ∃ lr, findLastKey idf (keyOf idf u.1) lives = some lr ∧
        u.2 = diffRecords u.1 lr ∧ (diffRecords u.1 lr).isEmpty = false := by
  intro B
  induction B with
  | nil =>
    intro u h
    simp [classify] at h
  | cons b bs ih =>
    intro u h
    cases hf : findLastKey idf (keyOf idf b) lives with
    | none =>
      simp only [classify, hf] at h
      have hr := ih h
      exact ⟨List.mem_cons_of_mem b hr.1, hr.2⟩
    | some lr =>
      by_cases hd : (diffRecords b lr).isEmpty = true
      · simp only [classify, hf, if_pos hd] at h
        have hr := ih h
        exact ⟨List.mem_cons_of_mem b hr.1, hr.2⟩
      · simp only [classify, hf, if_neg hd] at h
        rcases List.mem_cons.mp h with rfl | h'
        · refine ⟨List.mem_cons_self b bs, lr, hf, rfl, ?_⟩
          cases hdd : (diffRecords b lr).isEmpty with
          | true => exact absurd hdd hd
          | false => rfl
        · have hr := ih h'
          exact ⟨List.mem_cons_of_mem b hr.1, hr.2⟩

theorem mem_toUpdate_of (idf : String) (lives : List Record) :
    ∀ {B : List Record} {r lr : Record}, r ∈ B →
      findLastKey idf (keyOf idf r) lives = some lr →
      (diffRecords r lr).isEmpty = false →
      (r, diffRecords r lr) ∈ (classify idf lives B).toUpdate := by
  intro B
  induction B with
  | nil =>
    intro r lr h
    cases h
  | cons b bs ih =>
    intro r lr hr hf hd
    rcases List.mem_cons.mp hr with heq | hr'
    · subst heq
      have hneg : ¬((diffRecords r lr).isEmpty = true) := by simp [hd]
      simp only [classify, hf, if_neg hneg]
      exact List.mem_cons_self _ _
    · cases hfb : findLastKey idf (keyOf idf b) lives with
      | none =>
        simp only [classify, hfb]
        exact ih hr' hf hd
      | some lrb =>
        by_cases hdb : (diffRecords b lrb).isEmpty = true
        · simp only [classify, hfb, if_pos hdb]
          exact ih hr' hf hd
        · simp only [classify, hfb, if_neg hdb]
          exact List.mem_cons_of_mem _ (ih hr' hf hd)

theorem diffRecords_applyDiff (b lr : Record) :
    diffRecords b (applyDiff lr (diffRecords b lr)) = [] := by
  rw [diffRecords_nil_iff]
  intro f hf
  have hnd : ((diffRecords b lr).map (fun e => e.1)).Nodup := by
    rw [diffRecords_map_fst]
    exact (unionSchema_nodup b lr).filter _
  by_cases hmem : f ∈ (diffRecords b lr).map (fun e => e.1)
  · rcases List.mem_map.mp hmem with ⟨e, he, hfe⟩
    rcases e with ⟨f', ov, nv⟩
    simp only at hfe
    subst hfe
    have hm := mem_diffRecords he
    rw [getField_applyDiff_mem (diffRecords b lr) lr f' ov nv hnd he, hm.2.1]
  · rw [getField_applyDiff_notin (diffRecords b lr) lr f hmem]
    have hfu : f ∈ unionSchema b lr := by
      rcases mem_unionSchema.mp hf with hb | hlr'
      · exact mem_unionSchema.mpr (Or.inl hb)
      · rcases (fieldNames_applyDiff (diffRecords b lr) lr f).mp hlr' with hdm | hlm
        · exact absurd hdm hmem
        · exact mem_unionSchema.mpr (Or.inr hlm)
    by_contra hne
    apply hmem
    rw [diffRecords_map_fst, List.mem_filter]
    exact ⟨hfu, by simp [hne]⟩

theorem classify_all_unchanged (idf : String) (lives : List Record) :
    ∀ B : List Record,
      (∀ r ∈ B, ∃ lr, findLastKey idf (keyOf idf r) lives = some lr ∧
         (diffRecords r lr).isEmpty = true) →
      classify idf lives B = ⟨idf, [], [], B⟩ := by
  intro B
  induction B with
  | nil => intro _; rfl
  | cons b bs ih =>
    intro h
    obtain ⟨lr, hf, hd⟩ := h b (List.mem_cons_self b bs)
    have hrest := ih (fun r hr => h r (List.mem_cons_of_mem b hr))
    simp [classify, hf, hd, hrest]

/-- Counterexample for C5 as stated: backup records with distinct
record_id keys but a shared id value; after applying the computed updates,
re-reconciling infers the higher-priority field id from the enriched live
schema, under which the live records are duplicates, and one backup record
is classified toUpdate instead of unchanged. -/
theorem reconcile_apply_not_idempotent :
    reconcile exB5 exL5 = ReconOutcome.ok exRes5 ∧
    exRes5.idField = "record_id" ∧
    (exL5.map (keyOf "record_id")).Nodup ∧
    (exB5.map (keyOf "record_id")).Nodup ∧
    exL5' = applyAll exRes5 exL5 ∧
    (match reconcile exB5 exL5' with
     | ReconOutcome.ok r => r.toUpdate.length
     | ReconOutcome.noIdentifierFound => 0) = 1 := by
  refine ⟨by decide, by decide, by decide, by decide, rfl, by decide⟩

/-- C5 (amended): apply-then-reconcile is idempotent when the identifier
values of both sets are duplicate-free under the inferred field and
inference on the post-apply live set selects the same field: the second
reconcile yields no inserts, no updates, and unchanged equal to the whole
backup set. -/
theorem reconcile_apply_idempotent_same_identifier :
    ∀ (B L : List Record) (res : ReconResult),
      reconcile B L = ReconOutcome.ok res →
      (L.map (keyOf res.idField)).Nodup →
      (B.map (keyOf res.idField)).Nodup →
      inferIdentifier (schemaOf (applyAll res L)) = some res.idField →
      reconcile B (applyAll res L) = ReconOutcome.ok ⟨res.idField, [], [], B⟩ := by
  intro B L res hok hLnd hBnd hinf
  obtain ⟨idf, hres⟩ := reconcile_ok_classify hok
  subst hres
  rw [classify_idField] at hLnd hBnd hinf ⊢
  have happ : applyAll (classify idf L B) L =
      L.map (updElem idf (classify idf L B).toUpdate) ++ (classify idf L B).toInsert := by
    unfold applyAll
    rw [classify_idField, foldl_applyUpdateOne]
  have hF0 : ∀ u ∈ (classify idf L B).toUpdate,
      u.1 ∈ B ∧ ∃ lr, findLastKey idf (keyOf idf u.1) L = some lr ∧
        u.2 = diffRecords u.1 lr ∧ (diffRecords u.1 lr).isEmpty = false :=
    fun u hu => mem_toUpdate idf L hu
  have hF1 : ∀ u ∈ (classify idf L B).toUpdate, idf ∉ u.2.map (fun x => x.1) := by
    intro u hu
    obtain ⟨_, lr, hf, hud, _⟩ := hF0 u hu
    rw [hud]
    exact idf_not_mem_diff_fields (findLastKey_some hf).2
  have hku : ∀ e, keyOf idf (updElem idf (classify idf L B).toUpdate e) = keyOf idf e :=
    fun e => keyOf_updElem idf _ e hF1
  have hobl : ∀ r ∈ B, ∃ lr,
      findLastKey idf (keyOf idf r) (applyAll (classify idf L B) L) = some lr ∧
        (diffRecords r lr).isEmpty = true := by
    intro r hr
    cases hf : findLastKey idf (keyOf idf r) L with
    | none =>
      refine ⟨r, ?_, by rw [diffRecords_self]; rfl⟩
      rw [happ, findLastKey_append]
      have hrI : r ∈ (classify idf L B).toInsert := by
        rw [classify_toInsert_eq, List.mem_filter]
        exact ⟨hr, by simp [classOf, hf]⟩
      have hInd : ((classify idf L B).toInsert.map (keyOf idf)).Nodup := by
        rw [classify_toInsert_eq]
        exact List.Nodup.sublist (List.Sublist.map _ (List.filter_sublist B)) hBnd
      have hfI := findLastKey_mem_unique hInd hrI
      rw [hfI]
    | some lr =>
      have hlr := findLastKey_some hf
      refine ⟨updElem idf (classify idf L B).toUpdate lr, ?_, ?_⟩
      · rw [happ, findLastKey_append]
        have hfI : findLastKey idf (keyOf idf r) (classify idf L B).toInsert = none := by
          apply findLastKey_none
          intro x hxI hkx
          rw [classify_toInsert_eq, List.mem_filter] at hxI
          have hx0 : classOf idf L x = 0 := by simpa using hxI.2
          have hxnone := classOf_eq_zero.mp hx0
          rw [hkx, hf] at hxnone
          cases hxnone
        rw [hfI]
        show findLastKey idf (keyOf idf r)
            (L.map (updElem idf (classify idf L B).toUpdate)) =
          some (updElem idf (classify idf L B).toUpdate lr)
        have hUnd : ((L.map (updElem idf (classify idf L B).toUpdate)).map
            (keyOf idf)).Nodup := by
          rw [List.map_map]
          have hfun : (keyOf idf ∘ updElem idf (classify idf L B).toUpdate) = keyOf idf :=
            funext (fun e => hku e)
          rw [hfun]
          exact hLnd
        have hmemU : updElem idf (classify idf L B).toUpdate lr ∈
            L.map (updElem idf (classify idf L B).toUpdate) :=
          List.mem_map_of_mem _ hlr.1
        have h1 := findLastKey_mem_unique hUnd hmemU
        rw [hku lr, hlr.2] at h1
        exact h1
      · by_cases hd : (diffRecords r lr).isEmpty = true
        · have hnm : ∀ u ∈ (classify idf L B).toUpdate,
              keyOf idf u.1 ≠ keyOf idf lr := by
            intro u hu hk
            obtain ⟨huB, lr', hflr', hud, hne⟩ := hF0 u hu
            have hur : u.1 = r :=
              List.inj_on_of_nodup_map hBnd huB hr (by rw [hk, hlr.2])
            rw [hur, hf] at hflr'
            injection hflr' with hee
            rw [hur, ← hee] at hne
            rw [hd] at hne
            cases hne
          rw [updElem_no_match idf _ lr hnm]
          exact hd
        · have hdF : (diffRecords r lr).isEmpty = false := by
            cases hdd : (diffRecords r lr).isEmpty with
            | true => exact absurd hdd hd
            | false => rfl
          have hdm : (r, diffRecords r lr) ∈ (classify idf L B).toUpdate :=
            mem_toUpdate_of idf L hr hf hdF
          have hkeep : keyOf idf (applyDiff lr (diffRecords r lr)) = keyOf idf lr :=
            keyOf_applyDiff lr (idf_not_mem_diff_fields hlr.2)
          have huniq : ∀ u ∈ (classify idf L B).toUpdate,
              keyOf idf u.1 = keyOf idf lr → u = (r, diffRecords r lr) := by
            intro u hu hk
            obtain ⟨huB, lr', hflr', hud, hne⟩ := hF0 u hu
            have hur : u.1 = r :=
              List.inj_on_of_nodup_map hBnd huB hr (by rw [hk, hlr.2])
            rw [hur, hf] at hflr'
            injection hflr' with hee
            have hu2 : u.2 = diffRecords r lr := by rw [hud, hur, ← hee]
            calc u = (u.1, u.2) := rfl
              _ = (r, diffRecords r lr) := by rw [hur, hu2]
          have hfstnd : ((classify idf L B).toUpdate.map Prod.fst).Nodup := by
            rw [classify_toUpdate_fst_eq]
            exact (List.Nodup.of_map _ hBnd).filter _
          rw [updElem_single idf _ lr r (diffRecords r lr) hdm hlr.2 huniq hfstnd hkeep,
            diffRecords_applyDiff]
          rfl
  have hclass := classify_all_unchanged idf (applyAll (classify idf L B) L) B hobl
  show reconcile B (applyAll (classify idf L B) L) = _
  unfold reconcile
  rw [hinf]
  show ReconOutcome.ok (classify idf (applyAll (classify idf L B) L) B) = _
  rw [hclass]

/-- Witness for the amended C5 at the end-to-end example of the spec. -/
theorem reconcile_apply_idempotent_same_identifier_witness :
    reconcile exB1 (applyAll exRes1 exL1) = ReconOutcome.ok ⟨"id", [], [], exB1⟩ :=
  reconcile_apply_idempotent_same_identifier exB1 exL1 exRes1
    (by decide) (by decide) (by decide) (by decide)

/-- Witness for C10 at concrete tick counts and states. -/
theorem safetyInterval_terminates_witness :
    fireCount perfSafetyLimit 9 safetyInit ≤ perfSafetyLimit ∧
    fireCount ultraSafetyLimit 25 safetyInit ≤ ultraSafetyLimit ∧
    fireCount 7 3 ⟨2, false⟩ = 0 ∧
    ((safetyTick 5 ⟨4, true⟩).1.active = false ∧ (safetyTick 5 ⟨4, true⟩).2 = true) :=
  ⟨safetyInterval_terminates.1 9, safetyInterval_terminates.2.1 25,
   safetyInterval_terminates.2.2.1 7 3 ⟨2, false⟩ rfl,
   safetyInterval_terminates.2.2.2 5 4 (by omega)⟩

end EqMg
